import Mathlib

/-!
Verification of the session-memory pipeline specification for the
claude-sessions-explorer repository.

The repository ships the dashboard (Next.js API routes under `next/src/app/api`),
the commit-tracking hook (`hooks/track-commits.sh`) and design documents
(`tasks/001--session-learning-extraction/PLAN.md`) for the session-memory
pipeline (Extraction, Consolidation, Generation, Verification, Query).  The
pipeline core itself (the Python package planned in the TODO/PLAN documents) is
not part of the source tree, so the Consolidator, Generator and Query Engine
are modelled here from the specification's words; the API routes and the hook
are embedded from their source.
-/

set_option maxHeartbeats 1000000

namespace SessionMemory

/-- Modelled from the spec: one typed item of an Extraction Record
(`§3 ExtractionRecord`).  `text` is the primary text of the item (incident /
knowledge / workflow / decision / issue), `detail` the secondary text (for
Decision items, the rationale used for conflict detection), `ts` the
timestamp of the contributing session. -/
structure RawItem where
  text : String
  detail : String
  ts : Nat
  deriving DecidableEq, Repr

/-- Modelled from the spec: an Extraction Record (`§3`), one per session, with
the five typed item categories. -/
structure ExtractionRecord where
  session_id : String
  episodic : List RawItem
  semantic : List RawItem
  procedural : List RawItem
  decision : List RawItem
  gotcha : List RawItem
  deriving DecidableEq, Repr

/-- The five memory item categories (`§3`, glossary). -/
inductive Category where
  | episodic
  | semantic
  | procedural
  | decision
  | gotcha
  deriving DecidableEq, Repr

/-- The item list of one category of a record. -/
def itemsOf (c : Category) (r : ExtractionRecord) : List RawItem :=
  match c with
  | .episodic => r.episodic
  | .semantic => r.semantic
  | .procedural => r.procedural
  | .decision => r.decision
  | .gotcha => r.gotcha

/-- An extraction item tagged with the session id of its record: the unit the
Consolidator clusters. -/
structure SItem where
  sid : String
  text : String
  detail : String
  ts : Nat
  deriving DecidableEq, Repr

/-- Items of one record in one category, tagged with the record's session id. -/
def tagRecord (c : Category) (r : ExtractionRecord) : List SItem :=
  (itemsOf c r).map (fun it => ⟨r.session_id, it.text, it.detail, it.ts⟩)

/-- All items of one category across the supplied Extraction Records
(`§4.3` step 1 operates "for each item across all input records"). -/
def allItems (c : Category) (rs : List ExtractionRecord) : List SItem :=
  rs.flatMap (tagRecord c)

/-- Modelled from the spec: the cluster of items whose similarity fingerprint
equals `k` (`§4.3` step 1; the fingerprint function `fp` is the pluggable,
deterministic similarity key of `§9` — grouping by equal fingerprint is a
deterministic instance of the allowed clustering strategies). -/
def cluster (fp : String → Nat) (c : Category) (rs : List ExtractionRecord)
    (k : Nat) : List SItem :=
  (allItems c rs).filter (fun it => fp it.text == k)

/-- Modelled from the spec: `confidence = f(occurrences, recency)` (`§4.3`
step 4) — a concrete monotone policy curve, bounded in `[0,1]`, increasing in
`occurrences` and decreasing in `age` (time since `last_seen`). -/
def confidence (occ age : Nat) : ℚ :=
  (occ : ℚ) / ((occ : ℚ) + (age : ℚ) + 1)

/-- A consolidated MemoryItem (`§3`): canonical text, occurrence count,
provenance session set, first/last seen, derived confidence. -/
structure MemoryItem where
  canonical : String
  occurrences : Nat
  sessions : Finset String
  first_seen : Nat
  last_seen : Nat
  confidence : ℚ
  deriving DecidableEq

/-- Builds the MemoryItem of one cluster (`§4.3` step 2: canonical
representative, union of provenance, `first_seen`/`last_seen` from the union;
step 4: derived confidence).  `F` is the set of clustered items, `occ` the
count of distinct contributing sessions. -/
def mkMemory (F : Finset SItem) (occ : Nat) (now : Nat) : Option MemoryItem :=
  if h : F.Nonempty then
    some
      { canonical := (F.image SItem.text).min' (h.image SItem.text)
        occurrences := occ
        sessions := F.image SItem.sid
        first_seen := (F.image SItem.ts).min' (h.image SItem.ts)
        last_seen := (F.image SItem.ts).max' (h.image SItem.ts)
        confidence := confidence occ (now - (F.image SItem.ts).max' (h.image SItem.ts)) }
  else none

/-- Modelled from the spec: the MemoryItem that `consolidate` produces for
fingerprint key `k` in category `c` (`§4.3` steps 1, 2 and 4; `none` when no
item of the inputs has this fingerprint).  The occurrence count is the number
of distinct contributing session ids, counted on the item list. -/
def memoryAt (fp : String → Nat) (now : Nat) (c : Category)
    (rs : List ExtractionRecord) (k : Nat) : Option MemoryItem :=
  mkMemory (cluster fp c rs k).toFinset
    ((cluster fp c rs k).map SItem.sid).dedup.length now

theorem list_toFinset_map {α β : Type} [DecidableEq α] [DecidableEq β]
    (l : List α) (f : α → β) : (l.map f).toFinset = l.toFinset.image f := by
  ext x
  simp

theorem cluster_perm (fp : String → Nat) {rs1 rs2 : List ExtractionRecord}
    (h : List.Perm rs1 rs2) (c : Category) (k : Nat) :
    List.Perm (cluster fp c rs1 k) (cluster fp c rs2 k) :=
  ((h.map (tagRecord c)).flatten).filter _

/-- Example fingerprint: a deterministic similarity key on item text. -/
def fpEx (s : String) : Nat := s.length

/-- Fixture records: three sessions, each reporting the same gotcha worded
slightly differently (all three wordings share the `fpEx` fingerprint 9). -/
def recA : ExtractionRecord :=
  ⟨"s1", [], [], [], [], [⟨"db not up", "", 5⟩]⟩

def recB : ExtractionRecord :=
  ⟨"s2", [], [], [], [], [⟨"db is off", "", 7⟩]⟩

def recC : ExtractionRecord :=
  ⟨"s3", [], [], [], [], [⟨"run db 1s", "", 6⟩]⟩

/-- C1: for every fixed set of Extraction Records, `consolidate` produces the
same MemoryItem (same canonical text, occurrences, provenance sessions,
first/last seen, confidence) at every fingerprint key of every category,
regardless of the order in which the input records are supplied. -/
theorem consolidate_order_independent (fp : String → Nat) (now : Nat)
    {rs1 rs2 : List ExtractionRecord} (h : List.Perm rs1 rs2)
    (c : Category) (k : Nat) :
    memoryAt fp now c rs1 k = memoryAt fp now c rs2 k := by
  have hp := cluster_perm fp h c k
  unfold memoryAt
  rw [List.toFinset_eq_of_perm _ _ hp, (hp.map SItem.sid).dedup.length_eq]

theorem consolidate_order_independent_witness :
    memoryAt fpEx 10 Category.gotcha [recA, recB, recC] 9 =
      memoryAt fpEx 10 Category.gotcha [recC, recB, recA] 9 :=
  consolidate_order_independent fpEx 10 (by decide) Category.gotcha 9

/-- C2: after every consolidation run, every resulting MemoryItem of every
category satisfies `occurrences = |sessions|`. -/
theorem occurrences_eq_card_sessions (fp : String → Nat) (now : Nat)
    (c : Category) (rs : List ExtractionRecord) (k : Nat) {m : MemoryItem}
    (h : memoryAt fp now c rs k = some m) : m.occurrences = m.sessions.card := by
  unfold memoryAt mkMemory at h
  split at h
  · cases h
    show ((cluster fp c rs k).map SItem.sid).dedup.length =
      ((cluster fp c rs k).toFinset.image SItem.sid).card
    rw [← list_toFinset_map, List.card_toFinset]
  · cases h

theorem occurrences_eq_card_sessions_witness :
    ∃ m, memoryAt fpEx 10 Category.gotcha [recA, recB, recC] 9 = some m ∧
      m.occurrences = m.sessions.card :=
  ⟨_, rfl, occurrences_eq_card_sessions fpEx 10 Category.gotcha [recA, recB, recC] 9 rfl⟩

theorem confidence_nonneg (occ age : Nat) : 0 ≤ confidence occ age := by
  unfold confidence
  positivity

theorem confidence_le_one (occ age : Nat) : confidence occ age ≤ 1 := by
  unfold confidence
  rw [div_le_one (by positivity)]
  have h1 : (0 : ℚ) ≤ (age : ℚ) := by positivity
  linarith

theorem confidence_age_antitone (occ : Nat) {a1 a2 : Nat} (h : a1 ≤ a2) :
    confidence occ a2 ≤ confidence occ a1 := by
  unfold confidence
  have hc : (a1 : ℚ) ≤ (a2 : ℚ) := by exact_mod_cast h
  gcongr

theorem confidence_reinforce (occ age : Nat) :
    confidence occ age ≤ confidence (occ + 1) 0 := by
  unfold confidence
  rw [div_le_div_iff₀ (by positivity) (by positivity)]
  have h1 : (0 : ℚ) ≤ (occ : ℚ) := by positivity
  have h2 : (0 : ℚ) ≤ (age : ℚ) := by positivity
  push_cast
  nlinarith

theorem memory_decay (fp : String → Nat) (now1 now2 : Nat) (c : Category)
    (rs : List ExtractionRecord) (k : Nat) {m1 : MemoryItem}
    (h1 : memoryAt fp now1 c rs k = some m1) (hn : now1 ≤ now2) :
    ∃ m2, memoryAt fp now2 c rs k = some m2 ∧ m2.confidence ≤ m1.confidence := by
  unfold memoryAt mkMemory at h1 ⊢
  by_cases hF : (cluster fp c rs k).toFinset.Nonempty
  · rw [dif_pos hF] at h1 ⊢
    cases h1
    refine ⟨_, rfl, ?_⟩
    exact confidence_age_antitone _ (Nat.sub_le_sub_right hn _)
  · rw [dif_neg hF] at h1
    cases h1

theorem memory_reinforce (fp : String → Nat) (now1 now2 : Nat) (c : Category)
    (rs : List ExtractionRecord) (k : Nat) {m1 : MemoryItem}
    (r' : ExtractionRecord) (raw' : RawItem)
    (h1 : memoryAt fp now1 c rs k = some m1)
    (hitems : itemsOf c r' = [raw'])
    (hfp : fp raw'.text = k)
    (hsid : r'.session_id ∉ m1.sessions)
    (hts : raw'.ts = now2)
    (hls : m1.last_seen ≤ now2) :
    ∃ m2, memoryAt fp now2 c (r' :: rs) k = some m2 ∧
      m1.confidence ≤ m2.confidence ∧ m2.occurrences = m1.occurrences + 1 := by
  have hcl : cluster fp c (r' :: rs) k =
      ⟨r'.session_id, raw'.text, raw'.detail, raw'.ts⟩ :: cluster fp c rs k := by
    simp [cluster, allItems, tagRecord, hitems, hfp]
  unfold memoryAt mkMemory at h1
  by_cases hF : (cluster fp c rs k).toFinset.Nonempty
  · rw [dif_pos hF] at h1
    cases h1
    dsimp only at hsid hls
    unfold memoryAt mkMemory
    rw [hcl, List.toFinset_cons]
    have hmem : r'.session_id ∉ (cluster fp c rs k).map SItem.sid := by
      intro hin
      exact hsid (by
        rw [← list_toFinset_map]
        exact List.mem_toFinset.mpr hin)
    have hocc : (((⟨r'.session_id, raw'.text, raw'.detail, raw'.ts⟩ : SItem) ::
        cluster fp c rs k).map SItem.sid).dedup.length =
        ((cluster fp c rs k).map SItem.sid).dedup.length + 1 := by
      rw [List.map_cons, List.dedup_cons_of_not_mem hmem, List.length_cons]
    have hF2 : (insert (⟨r'.session_id, raw'.text, raw'.detail, raw'.ts⟩ : SItem)
        (cluster fp c rs k).toFinset).Nonempty :=
      Finset.insert_nonempty _ _
    rw [dif_pos hF2]
    have hls2 : ((insert (⟨r'.session_id, raw'.text, raw'.detail, raw'.ts⟩ : SItem)
        (cluster fp c rs k).toFinset).image SItem.ts).max' (hF2.image SItem.ts) = now2 := by
      apply le_antisymm
      · apply Finset.max'_le
        intro y hy
        rcases Finset.mem_image.mp hy with ⟨x, hx, hxy⟩
        rcases Finset.mem_insert.mp hx with hx1 | hx2
        · rw [← hxy, hx1, hts]
        · calc y ≤ ((cluster fp c rs k).toFinset.image SItem.ts).max' (hF.image SItem.ts) :=
              Finset.le_max' _ _ (by rw [← hxy]; exact Finset.mem_image_of_mem _ hx2)
            _ ≤ now2 := hls
      · apply Finset.le_max'
        apply Finset.mem_image.mpr
        exact ⟨_, Finset.mem_insert_self _ _, hts⟩
    refine ⟨_, rfl, ?_, ?_⟩
    · dsimp only
      rw [hocc, hls2, Nat.sub_self]
      exact confidence_reinforce _ _
    · dsimp only
      rw [hocc]
  · rw [dif_neg hF] at h1
    cases h1

/-- C3: a MemoryItem's confidence is bounded in `[0,1]`; it is non-increasing
between two consecutive consolidation runs when the item gains no new
supporting session (same records, later run time), and non-decreasing when a
new supporting session occurrence lands (a new record whose item joins the
cluster with a fresh session id at the current run time). -/
theorem confidence_policy_correct :
    (∀ fp now c rs k m, memoryAt fp now c rs k = some m →
        0 ≤ m.confidence ∧ m.confidence ≤ 1) ∧
    (∀ fp now1 now2 c rs k m1, memoryAt fp now1 c rs k = some m1 → now1 ≤ now2 →
        ∃ m2, memoryAt fp now2 c rs k = some m2 ∧ m2.confidence ≤ m1.confidence) ∧
    (∀ fp now1 now2 c rs k m1 r' raw', memoryAt fp now1 c rs k = some m1 →
        itemsOf c r' = [raw'] → fp raw'.text = k → r'.session_id ∉ m1.sessions →
        raw'.ts = now2 → m1.last_seen ≤ now2 →
        ∃ m2, memoryAt fp now2 c (r' :: rs) k = some m2 ∧
          m1.confidence ≤ m2.confidence) := by
  refine ⟨?_, ?_, ?_⟩
  · intro fp now c rs k m h
    unfold memoryAt mkMemory at h
    split at h
    · cases h
      exact ⟨confidence_nonneg _ _, confidence_le_one _ _⟩
    · cases h
  · intro fp now1 now2 c rs k m1 h1 hn
    exact memory_decay fp now1 now2 c rs k h1 hn
  · intro fp now1 now2 c rs k m1 r' raw' h1 hit hf hsid hts hls
    rcases memory_reinforce fp now1 now2 c rs k r' raw' h1 hit hf hsid hts hls with
      ⟨m2, hm2, hc, _⟩
    exact ⟨m2, hm2, hc⟩

/-- A fourth session reinforcing the same gotcha cluster at time 20. -/
def recNew : ExtractionRecord :=
  ⟨"s4", [], [], [], [], [⟨"db era 4x", "", 20⟩]⟩

theorem confidence_policy_correct_witness :
    ∃ m, memoryAt fpEx 10 Category.gotcha [recA, recB, recC] 9 = some m ∧
      (0 ≤ m.confidence ∧ m.confidence ≤ 1) ∧
      (∃ m2, memoryAt fpEx 15 Category.gotcha [recA, recB, recC] 9 = some m2 ∧
        m2.confidence ≤ m.confidence) ∧
      (∃ m3, memoryAt fpEx 20 Category.gotcha (recNew :: [recA, recB, recC]) 9 = some m3 ∧
        m.confidence ≤ m3.confidence) :=
  ⟨_, rfl,
    confidence_policy_correct.1 fpEx 10 Category.gotcha [recA, recB, recC] 9 _ rfl,
    confidence_policy_correct.2.1 fpEx 10 15 Category.gotcha [recA, recB, recC] 9 _ rfl
      (by decide),
    confidence_policy_correct.2.2 fpEx 10 20 Category.gotcha [recA, recB, recC] 9 _ recNew _
      rfl rfl (by decide) (by decide) rfl (by decide)⟩

/-- Canonical text of a cluster: its lexicographically least member text
(a deterministic "most representative member" choice, `§4.3` step 2). -/
def canonicalText (l : List SItem) : String :=
  match l.map SItem.text with
  | [] => ""
  | t :: ts => ts.foldl min t

/-- A consolidated Decision MemoryItem (`§3`, `§4.3` step 3): canonical
decision text, the rationale it asserts, provenance, and the optional
`conflict_group_id` shared by conflicting survivors. -/
structure DecisionMemoryItem where
  decision : String
  rationale : String
  sessions : Finset String
  occurrences : Nat
  conflict_group_id : Option Nat
  deriving DecidableEq

/-- Modelled from the spec: consolidation of Decision items with conflict
detection (`§4.3` step 3).  Within the cluster of fingerprint `k`, members
asserting incompatible claims (distinct rationales) are NOT merged: one
MemoryItem survives per distinct rationale, and when there are at least two
of them they all carry `conflict_group_id = some k`. -/
def decisionMemoryAt (fp : String → Nat) (rs : List ExtractionRecord) (k : Nat) :
    List DecisionMemoryItem :=
  (((cluster fp Category.decision rs k).toFinset.image SItem.detail).sort (· ≤ ·)).map
    (fun cl =>
      { decision := canonicalText ((cluster fp Category.decision rs k).filter
          (fun it => it.detail == cl))
        rationale := cl
        sessions := ((cluster fp Category.decision rs k).filter
          (fun it => it.detail == cl)).toFinset.image SItem.sid
        occurrences := (((cluster fp Category.decision rs k).filter
          (fun it => it.detail == cl)).map SItem.sid).dedup.length
        conflict_group_id :=
          if 2 ≤ ((cluster fp Category.decision rs k).toFinset.image SItem.detail).card
          then some k else none })

/-- C4: when a cluster of Decision items contains members asserting
incompatible claims, consolidation does not merge them: both survive as
separate MemoryItems sharing the same `conflict_group_id`. -/
theorem conflicting_decisions_both_survive (fp : String → Nat)
    (rs : List ExtractionRecord) (k : Nat) (d1 d2 : SItem)
    (h1 : d1 ∈ allItems Category.decision rs)
    (h2 : d2 ∈ allItems Category.decision rs)
    (hk1 : fp d1.text = k) (hk2 : fp d2.text = k)
    (hne : d1.detail ≠ d2.detail) :
    ∃ m1 m2, m1 ∈ decisionMemoryAt fp rs k ∧ m2 ∈ decisionMemoryAt fp rs k ∧
      m1 ≠ m2 ∧ m1.rationale = d1.detail ∧ m2.rationale = d2.detail ∧
      m1.conflict_group_id = some k ∧ m2.conflict_group_id = some k := by
  have hc1 : d1 ∈ cluster fp Category.decision rs k :=
    List.mem_filter.mpr ⟨h1, by simp [hk1]⟩
  have hc2 : d2 ∈ cluster fp Category.decision rs k :=
    List.mem_filter.mpr ⟨h2, by simp [hk2]⟩
  have himg1 : d1.detail ∈ (cluster fp Category.decision rs k).toFinset.image SItem.detail :=
    Finset.mem_image_of_mem _ (List.mem_toFinset.mpr hc1)
  have himg2 : d2.detail ∈ (cluster fp Category.decision rs k).toFinset.image SItem.detail :=
    Finset.mem_image_of_mem _ (List.mem_toFinset.mpr hc2)
  have hcard : 2 ≤ ((cluster fp Category.decision rs k).toFinset.image SItem.detail).card := by
    calc 2 = ({d1.detail, d2.detail} : Finset String).card := (Finset.card_pair hne).symm
      _ ≤ _ := Finset.card_le_card (Finset.insert_subset_iff.mpr
          ⟨himg1, Finset.singleton_subset_iff.mpr himg2⟩)
  refine ⟨_, _,
    List.mem_map.mpr ⟨d1.detail, (Finset.mem_sort _).mpr himg1, rfl⟩,
    List.mem_map.mpr ⟨d2.detail, (Finset.mem_sort _).mpr himg2, rfl⟩,
    ?_, rfl, rfl, ?_, ?_⟩
  · intro he
    exact hne (congrArg DecisionMemoryItem.rationale he)
  · exact if_pos hcard
  · exact if_pos hcard

/-- Two sessions deciding the same subject ("tok store", fingerprint 9) with
incompatible rationales. -/
def recD1 : ExtractionRecord :=
  ⟨"s1", [], [], [], [⟨"tok store", "cookie: httponly", 3⟩], []⟩

def recD2 : ExtractionRecord :=
  ⟨"s2", [], [], [], [⟨"tok depot", "localStorage: easy", 4⟩], []⟩

theorem conflicting_decisions_both_survive_witness :
    ∃ m1 m2, m1 ∈ decisionMemoryAt fpEx [recD1, recD2] 9 ∧
      m2 ∈ decisionMemoryAt fpEx [recD1, recD2] 9 ∧
      m1 ≠ m2 ∧ m1.rationale = "cookie: httponly" ∧ m2.rationale = "localStorage: easy" ∧
      m1.conflict_group_id = some 9 ∧ m2.conflict_group_id = some 9 :=
  conflicting_decisions_both_survive fpEx [recD1, recD2] 9
    ⟨"s1", "tok store", "cookie: httponly", 3⟩
    ⟨"s2", "tok depot", "localStorage: easy", 4⟩
    (by decide) (by decide) (by decide) (by decide) (by decide)

/-- Words of a text, for the relevance measure. -/
def words (s : String) : List String := s.splitOn " "

/-- Modelled from the spec: relevance of a MemoryItem to a query text
(`§4.6` "ranks by relevance to `text`"): exact canonical match plus shared
word count. -/
def relevance (text : String) (m : MemoryItem) : Nat :=
  (if m.canonical = text then 1 else 0) +
    ((words text).filter (fun w => (words m.canonical).contains w)).length

/-- Modelled from the spec: ranking score — relevance combined with
`confidence` (`§4.6`). -/
def score (text : String) (m : MemoryItem) : ℚ :=
  (relevance text m : ℚ) + m.confidence

/-- Modelled from the spec: the Query Engine's ranked search (`§4.6`):
the items with positive relevance, ranked by score (best first; stable). -/
def queryEngine (items : List MemoryItem) (text : String) : List MemoryItem :=
  (items.filter (fun m => decide (0 < relevance text m))).insertionSort
    (fun a b => score text b ≤ score text a)

/-- Modelled from the spec: the Generator's inclusion policy (`§4.4`): the
items admitted to the primary instruction document are exactly those with
`occurrences ≥ frequency_threshold`. -/
def instructionDocItems (threshold : Nat) (items : List MemoryItem) :
    List MemoryItem :=
  items.filter (fun m => decide (threshold ≤ m.occurrences))

/-- C5: every item with `occurrences < frequency_threshold` is excluded from
the primary instruction document, yet remains retrievable via the Query
Engine (querying its own canonical text returns it). -/
theorem below_threshold_excluded_but_queryable (threshold : Nat)
    (items : List MemoryItem) (m : MemoryItem) (hm : m ∈ items)
    (hocc : m.occurrences < threshold) :
    m ∉ instructionDocItems threshold items ∧
      m ∈ queryEngine items m.canonical := by
  constructor
  · intro hin
    have h := (List.mem_filter.mp hin).2
    simp only [decide_eq_true_eq] at h
    omega
  · apply (List.mem_insertionSort _).mpr
    apply List.mem_filter.mpr
    refine ⟨hm, ?_⟩
    simp [relevance]

/-- Fixture items: one reinforced by five sessions, one seen only once. -/
def mLow : MemoryItem :=
  ⟨"use bun", 1, {"s1"}, 3, 3, confidence 1 0⟩

def mHigh : MemoryItem :=
  ⟨"run tests", 5, {"s1", "s2", "s3", "s4", "s5"}, 1, 9, confidence 5 0⟩

theorem below_threshold_excluded_but_queryable_witness :
    mLow ∉ instructionDocItems 2 [mHigh, mLow] ∧
      mLow ∈ queryEngine [mHigh, mLow] mLow.canonical :=
  below_threshold_excluded_but_queryable 2 [mHigh, mLow] mLow
    (List.mem_cons_of_mem mHigh (List.mem_cons_self mLow [])) (by decide)

/-- Modelled from the spec: the per-project ConsolidatedMemory aggregate
(`§3`): items plus `sessions_analyzed`, `generated_at` and a version. -/
structure ConsolidatedMemory where
  project : String
  items : List MemoryItem
  sessions_analyzed : Nat
  generated_at : Nat
  version : Nat
  deriving DecidableEq

/-- Modelled from the spec: the Query Engine entry point over a possibly
absent snapshot (`§4.6`): read-only ranked search that must tolerate an empty
or stale memory by returning an empty result, never erroring. -/
def queryRun (mem : Option ConsolidatedMemory) (text : String) :
    Except String (List MemoryItem) :=
  match mem with
  | none => .ok (queryEngine [] text)
  | some m => .ok (queryEngine m.items text)

/-- C7: for every query text, querying an absent, empty or stale
ConsolidatedMemory returns an empty `ok` result — never an error —
and a query never returns an error on any memory; staleness
(`generated_at`/`version`) does not affect the result. -/
theorem query_tolerates_empty_and_stale :
    (∀ text, queryRun none text = .ok []) ∧
    (∀ m text, m.items = [] → queryRun (some m) text = .ok []) ∧
    (∀ mem text, ∃ l, queryRun mem text = .ok l) ∧
    (∀ p items sa g1 g2 v1 v2 text,
      queryRun (some ⟨p, items, sa, g1, v1⟩) text =
        queryRun (some ⟨p, items, sa, g2, v2⟩) text) := by
  refine ⟨fun text => rfl, ?_, ?_, fun p items sa g1 g2 v1 v2 text => rfl⟩
  · intro m text h
    simp [queryRun, queryEngine, h]
  · intro mem text
    cases mem
    · exact ⟨_, rfl⟩
    · exact ⟨_, rfl⟩

theorem query_tolerates_empty_and_stale_witness :
    queryRun (some ⟨"proj", [], 0, 5, 1⟩) "how to add endpoint" = .ok [] :=
  query_tolerates_empty_and_stale.2.1 ⟨"proj", [], 0, 5, 1⟩ "how to add endpoint" rfl

end SessionMemory

namespace SessionsRoute

/-!
Embedding of the message-collection loop of `GET /api/sessions/[id]`
(`next/src/app/api/sessions/[id]/route.ts`, lines 96-113).  `JSON.parse` of a
transcript line is modelled by its outcome: either the line is corrupt
(`JSON.parse` throws) or it yields an event with a `type` field and an
optional `message` payload (absent or falsy `message` modelled as `none`).
-/

/-- Parse outcome of one JSONL transcript line. -/
inductive ParsedLine where
  | corrupt
  | event (type : String) (message : Option String)
  deriving DecidableEq, Repr

/-- The parsing loop: each line is parsed in its own try/catch; invalid JSON
lines are skipped with `continue`; events of type `"user"` or `"assistant"`
that carry a message are pushed. -/
def collectMessages : List ParsedLine → List (String × String)
  | [] => []
  | .corrupt :: rest => collectMessages rest
  | .event _ none :: rest => collectMessages rest
  | .event t (some msg) :: rest =>
    if t = "user" ∨ t = "assistant" then (t, msg) :: collectMessages rest
    else collectMessages rest

/-- C6: parsing is lenient line by line — a single corrupt line anywhere in
the transcript is skipped rather than failing the load, and the messages
collected are exactly those of the transcript without the corrupt line. -/
theorem corrupt_line_skipped (xs ys : List ParsedLine) :
    collectMessages (xs ++ ParsedLine.corrupt :: ys) = collectMessages (xs ++ ys) := by
  induction xs with
  | nil => rfl
  | cons x xs ih =>
    cases x with
    | corrupt => simpa [collectMessages] using ih
    | event t msg =>
      cases msg with
      | none => simpa [collectMessages] using ih
      | some m => simp [collectMessages, ih]

end SessionsRoute

namespace KnowledgeRoute

/-!
Embedding of `GET /api/knowledge/[project]`.  Each data source is read in its
own try/catch; the on-disk state is modelled by the outcome of each read.
-/

/-- Outcome of reading-and-parsing one JSON (or text) source: the file may be
missing/unreadable, may fail to parse — or parse to a falsy value, which the
route treats identically (the field stays `null`) — or yields a value. -/
inductive JRead (α : Type) where
  | missing
  | corrupt
  | ok (v : α)
  deriving DecidableEq, Repr

def JRead.toOption {α : Type} : JRead α → Option α
  | .ok v => some v
  | _ => none

def JRead.listD {α : Type} : JRead (List α) → List α
  | .ok v => v
  | _ => []

/-- A raw session extraction, as parsed from `extractions/[project]/*.json`. -/
structure SessionExtraction where
  extracted_at : Nat
  payload : String
  deriving DecidableEq, Repr

/-- The on-disk state of the seven data sources the route reads.  The two
directory sources are `none` when `readdir` fails and otherwise list the
directory's files (name and, for extractions, the read-and-parse outcome;
skill files are plain text reads). -/
structure KnowledgeFS where
  knowledgeJson : JRead String
  claudeMd : Option String
  tasksJson : JRead (List String)
  verificationJson : JRead String
  skillsDir : Option (List (String × String))
  memoryJson : JRead String
  extractionsDir : Option (List (String × JRead SessionExtraction))
  deriving DecidableEq

/-- The response body assembled by the route. -/
structure KnowledgeData where
  knowledge : Option String
  claudeMd : Option String
  tasks : List String
  verification : Option String
  skills : List (String × String)
  memory : Option String
  extractions : List SessionExtraction
  deriving DecidableEq

/-- The route's response: 200 with data, or 404 `Project not found`. -/
inductive Response where
  | ok (data : KnowledgeData)
  | notFound
  deriving DecidableEq

/-- JavaScript `s.replace(pat, "")`: removes the first occurrence only. -/
def replaceFirst (s pat : String) : String :=
  match s.splitOn pat with
  | [] => s
  | [x] => x
  | x :: rest => x ++ String.intercalate pat rest

/-- The skills loop: `.md` files of the skills directory, name stripped of
its first `".md"`; a failed `readdir` leaves the empty list. -/
def readSkills : Option (List (String × String)) → List (String × String)
  | none => []
  | some files =>
    (files.filter (fun f => f.1.endsWith ".md")).map
      (fun f => (replaceFirst f.1 ".md", f.2))

/-- The extractions loop: `.json` files are read and parsed inside one shared
try/catch, so a corrupt file aborts the loop but keeps the entries pushed
before it.  Returns the collected list and whether the loop completed. -/
def readExtractions : List (String × JRead SessionExtraction) →
    List SessionExtraction × Bool
  | [] => ([], true)
  | (name, r) :: rest =>
    if name.endsWith ".json" then
      match r with
      | .ok e =>
        let p := readExtractions rest
        (e :: p.1, p.2)
      | _ => ([], false)
    else readExtractions rest

/-- The extractions field: loop over the directory, then — only when the loop
completed — sort by `extracted_at`, newest first (a stable comparator sort,
as ECMAScript `Array.prototype.sort`). -/
def extractionsResult : Option (List (String × JRead SessionExtraction)) →
    List SessionExtraction
  | none => []
  | some files =>
    let p := readExtractions files
    if p.2 then p.1.insertionSort (fun a b => b.extracted_at ≤ a.extracted_at)
    else p.1

/-- The assembled response body (the seven reads of the route, each degraded
independently on failure). -/
def buildData (fs : KnowledgeFS) : KnowledgeData :=
  { knowledge := fs.knowledgeJson.toOption
    claudeMd := fs.claudeMd
    tasks := fs.tasksJson.listD
    verification := fs.verificationJson.toOption
    skills := readSkills fs.skillsDir
    memory := fs.memoryJson.toOption
    extractions := extractionsResult fs.extractionsDir }

/-- JavaScript truthiness of a string field: present and non-empty. -/
def truthyStr : Option String → Bool
  | none => false
  | some s => !(s == "")

/-- The route's `hasData` check (route lines 132-134), with JavaScript
truthiness for each field. -/
def hasData (d : KnowledgeData) : Bool :=
  d.knowledge.isSome || truthyStr d.claudeMd || decide (0 < d.extractions.length) ||
    decide (0 < d.tasks.length) || d.verification.isSome || d.memory.isSome ||
    decide (0 < d.skills.length)

/-- The route: assemble the body with every missing source degraded, then
404 when no data was found, else 200. -/
def knowledgeGET (fs : KnowledgeFS) : Response :=
  if hasData (buildData fs) then .ok (buildData fs) else .notFound

/-- "One of the seven data sources exists" in the sense of the claim: the
file or directory is present on disk (readable), regardless of content. -/
def sourcesExist (fs : KnowledgeFS) : Prop :=
  fs.knowledgeJson ≠ .missing ∨ fs.claudeMd ≠ none ∨ fs.tasksJson ≠ .missing ∨
    fs.verificationJson ≠ .missing ∨ fs.skillsDir ≠ none ∨
    fs.memoryJson ≠ .missing ∨ fs.extractionsDir ≠ none

/-- A project whose only on-disk source is an existing but empty skills
directory. -/
def fsEmptySkills : KnowledgeFS :=
  ⟨.missing, none, .missing, .missing, some [], .missing, none⟩

theorem toOption_isSome_iff {α : Type} (r : JRead α) :
    r.toOption.isSome = true ↔ ∃ v, r = .ok v := by
  cases r <;> simp [JRead.toOption]

theorem truthyStr_iff (o : Option String) :
    truthyStr o = true ↔ ∃ s, o = some s ∧ s ≠ "" := by
  cases o <;> simp [truthyStr]

theorem hasData_iff (fs : KnowledgeFS) :
    hasData (buildData fs) = true ↔
      ((∃ v, fs.knowledgeJson = .ok v) ∨
        (∃ s, fs.claudeMd = some s ∧ s ≠ "") ∨
        extractionsResult fs.extractionsDir ≠ [] ∨
        fs.tasksJson.listD ≠ [] ∨
        (∃ v, fs.verificationJson = .ok v) ∨
        (∃ v, fs.memoryJson = .ok v) ∨
        readSkills fs.skillsDir ≠ []) := by
  simp only [hasData, buildData, Bool.or_eq_true, decide_eq_true_eq,
    toOption_isSome_iff, truthyStr_iff, List.length_pos, ne_eq, or_assoc]

/-- C8 counterexample: a project whose skills directory exists on disk but is
empty gets a 404 even though one of the seven data sources exists — the
route's 404 condition tests collected data, not source existence. -/
theorem knowledge_get_404_counterexample :
    ¬ (knowledgeGET fsEmptySkills = Response.notFound ↔ ¬ sourcesExist fsEmptySkills) := by
  intro hiff
  exact hiff.mp rfl
    (Or.inr (Or.inr (Or.inr (Or.inr (Or.inl (by simp [fsEmptySkills]))))))

/-- C8 (amended): the route responds 404 exactly when no data source yields
data — the five file sources are missing, unreadable, unparsable or falsy,
the skills directory yields no `.md` file, and the extractions yield no
parsed record; otherwise it responds 200 with every missing source
independently degraded to `null` or an empty list. -/
theorem knowledge_get_404_amended (fs : KnowledgeFS) :
    (knowledgeGET fs = .notFound ↔
      ¬ ((∃ v, fs.knowledgeJson = .ok v) ∨
          (∃ s, fs.claudeMd = some s ∧ s ≠ "") ∨
          extractionsResult fs.extractionsDir ≠ [] ∨
          fs.tasksJson.listD ≠ [] ∨
          (∃ v, fs.verificationJson = .ok v) ∨
          (∃ v, fs.memoryJson = .ok v) ∨
          readSkills fs.skillsDir ≠ [])) ∧
    (∀ d, knowledgeGET fs = .ok d →
      (fs.knowledgeJson = .missing → d.knowledge = none) ∧
      (fs.claudeMd = none → d.claudeMd = none) ∧
      (fs.tasksJson = .missing → d.tasks = []) ∧
      (fs.verificationJson = .missing → d.verification = none) ∧
      (fs.skillsDir = none → d.skills = []) ∧
      (fs.memoryJson = .missing → d.memory = none) ∧
      (fs.extractionsDir = none → d.extractions = [])) := by
  constructor
  · rw [knowledgeGET]
    by_cases h : hasData (buildData fs) = true
    · rw [if_pos h]
      simp [(hasData_iff fs).mp h]
    · rw [if_neg h]
      constructor
      · intro _
        exact fun hp => h ((hasData_iff fs).mpr hp)
      · intro _
        rfl
  · intro d hd
    rw [knowledgeGET] at hd
    split at hd
    · cases hd
      refine ⟨?_, ?_, ?_, ?_, ?_, ?_, ?_⟩ <;>
        · intro hsrc
          simp [buildData, hsrc, JRead.toOption, JRead.listD, readSkills,
            extractionsResult]
    · cases hd

/-- A project whose only data source is a parseable knowledge.json. -/
def fsKnowledgeOnly : KnowledgeFS :=
  ⟨.ok "facts", none, .missing, .missing, none, .missing, none⟩

theorem knowledge_get_404_amended_witness :
    ∃ d, knowledgeGET fsKnowledgeOnly = Response.ok d ∧
      d.claudeMd = none ∧ d.tasks = [] ∧ d.verification = none ∧
      d.skills = [] ∧ d.memory = none ∧ d.extractions = [] := by
  refine ⟨_, rfl, ?_⟩
  have h := (knowledge_get_404_amended fsKnowledgeOnly).2 _ rfl
  exact ⟨h.2.1 rfl, h.2.2.1 rfl, h.2.2.2.1 rfl, h.2.2.2.2.1 rfl,
    h.2.2.2.2.2.1 rfl, h.2.2.2.2.2.2 rfl⟩

end KnowledgeRoute

namespace ProjectsRoute

/-!
Embedding of `GET /api/projects` (`next/src/app/api/projects/route.ts`).
Timestamps are modelled as the `Date.getTime` value of a valid `modified`
date string.  ECMAScript `Array.prototype.sort` is modelled as a stable
comparator sort (insertion sort): the specification requires sort to be
stable, and `SortCompare` maps a `NaN` comparator result to `+0` — for the
projects comparator `new Date(b.lastActivity).getTime() -
new Date(a.lastActivity).getTime()`, an empty `lastActivity` (a project whose
index has no entries) is an invalid date whose `getTime()` is `NaN`, so such
a project compares as equal to every other.
-/

/-- One entry of a project's sessions-index.json. -/
structure IndexEntry where
  sessionId : String
  modified : Nat
  deriving DecidableEq, Repr

/-- A project's sessions-index.json. -/
structure SessionIndex where
  entries : List IndexEntry
  deriving DecidableEq, Repr

/-- One directory entry of `~/.claude/projects`: name, whether it is a
directory, and the outcome of reading-and-parsing its sessions-index.json. -/
structure DirEnt where
  name : String
  isDir : Bool
  index : KnowledgeRoute.JRead SessionIndex
  deriving DecidableEq, Repr

/-- A project of the response; `lastActivity = none` models the empty string
assigned when the index has no entries. -/
structure Project where
  id : String
  name : String
  sessionCount : Nat
  lastActivity : Option Nat
  deriving DecidableEq, Repr

/-- `"a may stay before b"` for the route's projects comparator under
ECMAScript `SortCompare` (comparator value `≤ 0`; `NaN` treated as `+0`). -/
def projCmpB (p q : Project) : Bool :=
  match p.lastActivity, q.lastActivity with
  | some a, some b => b ≤ a
  | _, _ => true

/-- Directory-name conversion of the route: replace every dash with a slash,
then strip one leading slash. -/
def projectName (dir : String) : String :=
  let s := dir.map (fun ch => if ch = '-' then '/' else ch)
  if s.startsWith "/" then s.drop 1 else s

/-- `lastActivity` of one project (route lines 48-56): sort a copy of the
entries most-recent-first and take the head's `modified`; `none` (rendered
`""`) when there are no entries. -/
def lastActivityOf (entries : List IndexEntry) : Option Nat :=
  ((entries.insertionSort (fun a b => b.modified ≤ a.modified)).head?).map
    IndexEntry.modified

/-- The project built from one directory entry, when it is a directory with a
parseable sessions-index.json. -/
def projectOf (d : DirEnt) : Option Project :=
  if d.isDir then
    match d.index with
    | .ok idx => some ⟨d.name, projectName d.name, idx.entries.length,
        lastActivityOf idx.entries⟩
    | _ => none
  else none

/-- The route: collect the projects of the readable directories, then sort by
last activity, most recent first. -/
def projectsGET (dirs : List DirEnt) : List Project :=
  (dirs.filterMap projectOf).insertionSort (fun p q => projCmpB p q = true)

/-- `v` is the maximum of the list `l`. -/
def isMaxOf (v : Nat) (l : List Nat) : Prop :=
  v ∈ l ∧ ∀ x ∈ l, x ≤ v

/-- Recency rank of a `lastActivity`: a missing one (rendered `""`) counts as
least recent. -/
def laRank : Option Nat → WithBot Nat
  | none => ⊥
  | some v => (v : WithBot Nat)

/-- The sortedness the claim asserts: each project's `lastActivity` is at
least the next one's, a missing one counting as least recent. -/
def sortedByLastActivity (l : List Project) : Prop :=
  l.Pairwise (fun p q => laRank q.lastActivity ≤ laRank p.lastActivity)

/-- Two project directories: `pB` has a parseable index with no sessions
(so `lastActivity` is the empty string), `pA` one session modified at 5. -/
def dirB : DirEnt := ⟨"pB", true, .ok ⟨[]⟩⟩

def dirA : DirEnt := ⟨"pA", true, .ok ⟨[⟨"sess1", 5⟩]⟩⟩

/-- C9 counterexample: with a no-session project listed first, the returned
list is NOT sorted most-recent-first — the empty `lastActivity` makes the
comparator return `NaN` (treated as equal), so the stable sort leaves the
no-session project in front of a project with real activity. -/
theorem projects_get_sorted_counterexample :
    ¬ sortedByLastActivity (projectsGET [dirB, dirA]) := by
  unfold sortedByLastActivity
  decide

theorem pairwise_orderedInsert_of {α : Type} (P : α → Prop) (r : α → α → Prop)
    [DecidableRel r] (s : α → α → Prop)
    (himp : ∀ a b, P a → P b → r a b → s a b)
    (hflip : ∀ a b, P a → P b → ¬ r a b → s b a)
    (htr : ∀ a b c, s a b → s b c → s a c)
    (a : α) (l : List α) (ha : P a) (hl : ∀ x ∈ l, P x) (hp : l.Pairwise s) :
    (l.orderedInsert r a).Pairwise s := by
  induction l with
  | nil => simp
  | cons b t ih =>
    rw [List.orderedInsert]
    by_cases hr : r a b
    · rw [if_pos hr]
      have hsab := himp a b ha (hl b (List.mem_cons_self b t)) hr
      refine List.pairwise_cons.mpr ⟨?_, hp⟩
      intro x hx
      rcases List.mem_cons.mp hx with hx1 | hx2
      · rw [hx1]
        exact hsab
      · exact htr a b x hsab ((List.pairwise_cons.mp hp).1 x hx2)
    · rw [if_neg hr]
      have hsba := hflip a b ha (hl b (List.mem_cons_self b t)) hr
      refine List.pairwise_cons.mpr ⟨?_, ?_⟩
      · intro x hx
        rcases (List.mem_orderedInsert r).mp hx with hx1 | hx2
        · rw [hx1]
          exact hsba
        · exact (List.pairwise_cons.mp hp).1 x hx2
      · exact ih (fun x hx => hl x (List.mem_cons_of_mem b hx))
          (List.pairwise_cons.mp hp).2

theorem pairwise_insertionSort_of {α : Type} (P : α → Prop) (r : α → α → Prop)
    [DecidableRel r] (s : α → α → Prop)
    (himp : ∀ a b, P a → P b → r a b → s a b)
    (hflip : ∀ a b, P a → P b → ¬ r a b → s b a)
    (htr : ∀ a b c, s a b → s b c → s a c)
    (l : List α) (hl : ∀ x ∈ l, P x) :
    (l.insertionSort r).Pairwise s := by
  induction l with
  | nil => simp
  | cons a t ih =>
    rw [List.insertionSort]
    exact pairwise_orderedInsert_of P r s himp hflip htr a _
      (hl a (List.mem_cons_self a t))
      (fun x hx => hl x (List.mem_cons_of_mem a ((List.mem_insertionSort r).mp hx)))
      (ih (fun x hx => hl x (List.mem_cons_of_mem a hx)))

theorem lastActivityOf_max (entries : List IndexEntry) (h : entries ≠ []) :
    ∃ v, lastActivityOf entries = some v ∧
      isMaxOf v (entries.map IndexEntry.modified) := by
  haveI instTot : IsTotal IndexEntry (fun a b => b.modified ≤ a.modified) :=
    ⟨fun a b => le_total b.modified a.modified⟩
  haveI instTrans : IsTrans IndexEntry (fun a b => b.modified ≤ a.modified) :=
    ⟨fun a b c hab hbc => le_trans hbc hab⟩
  have hperm := List.perm_insertionSort
    (fun a b : IndexEntry => b.modified ≤ a.modified) entries
  have hsorted := List.sorted_insertionSort
    (fun a b : IndexEntry => b.modified ≤ a.modified) entries
  cases hl : entries.insertionSort (fun a b => b.modified ≤ a.modified) with
  | nil =>
    rw [hl] at hperm
    exact absurd hperm.symm.eq_nil h
  | cons e t =>
    rw [hl] at hperm hsorted
    refine ⟨e.modified, ?_, ?_, ?_⟩
    · unfold lastActivityOf
      rw [hl]
      rfl
    · exact List.mem_map_of_mem IndexEntry.modified
        (hperm.mem_iff.mp (List.mem_cons_self e t))
    · intro x hx
      rcases List.mem_map.mp hx with ⟨a, ha, hax⟩
      rw [← hax]
      rcases List.mem_cons.mp (hperm.mem_iff.mpr ha) with ha1 | ha2
      · rw [ha1]
      · exact (List.pairwise_cons.mp hsorted).1 a ha2

/-- C9 (amended): for every project returned by `GET /api/projects`, its
`lastActivity` equals the maximum `modified` timestamp over the entries of
that project's sessions-index.json (the empty string, modelled `none`, when
there are no entries); directories that are not directories or lack a
parseable sessions-index.json are omitted; and the returned list is sorted by
`lastActivity` most-recent-first PROVIDED every returned project has at least
one session entry — a project with no entries gets an empty `lastActivity`,
which the comparator treats as equal to everything, so it stays in directory
order and can break global sortedness. -/
theorem projects_get_spec (dirs : List DirEnt) :
    (∀ d ∈ dirs, ∀ idx, d.isDir = true → d.index = .ok idx →
      ((idx.entries = [] → lastActivityOf idx.entries = none) ∧
        (idx.entries ≠ [] → ∃ v, lastActivityOf idx.entries = some v ∧
          isMaxOf v (idx.entries.map IndexEntry.modified)))) ∧
    ((∀ p ∈ projectsGET dirs, p.lastActivity ≠ none) →
      sortedByLastActivity (projectsGET dirs)) ∧
    (∀ p ∈ projectsGET dirs, ∃ d ∈ dirs, d.isDir = true ∧ ∃ idx,
      d.index = .ok idx ∧
      p = ⟨d.name, projectName d.name, idx.entries.length,
        lastActivityOf idx.entries⟩) := by
  refine ⟨?_, ?_, ?_⟩
  · intro d _ idx _ _
    constructor
    · intro he
      rw [he]
      rfl
    · exact lastActivityOf_max idx.entries
  · intro hall
    unfold sortedByLastActivity projectsGET
    apply pairwise_insertionSort_of (fun p => p.lastActivity ≠ none)
    · intro a b hpa hpb hr
      rcases Option.ne_none_iff_exists'.mp hpa with ⟨va, hva⟩
      rcases Option.ne_none_iff_exists'.mp hpb with ⟨vb, hvb⟩
      rw [hva, hvb]
      unfold projCmpB at hr
      rw [hva, hvb] at hr
      exact WithBot.coe_le_coe.mpr (of_decide_eq_true hr)
    · intro a b hpa hpb hr
      rcases Option.ne_none_iff_exists'.mp hpa with ⟨va, hva⟩
      rcases Option.ne_none_iff_exists'.mp hpb with ⟨vb, hvb⟩
      rw [hva, hvb]
      unfold projCmpB at hr
      rw [hva, hvb] at hr
      have hlt : ¬ (vb ≤ va) := fun hle => hr (decide_eq_true hle)
      exact WithBot.coe_le_coe.mpr (le_of_not_le hlt)
    · intro a b c hab hbc
      exact le_trans hbc hab
    · intro x hx
      exact hall x ((List.mem_insertionSort _).mpr hx)
  · intro p hp
    rcases List.mem_filterMap.mp ((List.mem_insertionSort _).mp hp) with ⟨d, hd, hpd⟩
    refine ⟨d, hd, ?_⟩
    unfold projectOf at hpd
    by_cases hdir : d.isDir
    · rw [if_pos hdir] at hpd
      cases hidx : d.index with
      | ok idx =>
        rw [hidx] at hpd
        cases hpd
        exact ⟨hdir, idx, rfl, rfl⟩
      | missing =>
        rw [hidx] at hpd
        cases hpd
      | corrupt =>
        rw [hidx] at hpd
        cases hpd
    · rw [if_neg hdir] at hpd
      cases hpd

/-- A third directory with two sessions, modified at 9 and 3. -/
def dirC : DirEnt := ⟨"pC", true, .ok ⟨[⟨"s1", 9⟩, ⟨"s2", 3⟩]⟩⟩

theorem projects_get_spec_witness :
    sortedByLastActivity (projectsGET [dirA, dirC]) ∧
      ∃ v, lastActivityOf [⟨"s1", 9⟩, ⟨"s2", 3⟩] = some v ∧ isMaxOf v [9, 3] := by
  constructor
  · apply (projects_get_spec [dirA, dirC]).2.1
    decide
  · have h := ((projects_get_spec [dirA, dirC]).1 dirC
      (List.mem_cons_of_mem dirA (List.mem_cons_self dirC []))
      ⟨[⟨"s1", 9⟩, ⟨"s2", 3⟩]⟩ rfl rfl).2 (by simp)
    simpa using h

end ProjectsRoute

namespace Hook

/-!
Embedding of the PostToolUse hook `hooks/track-commits.sh`.  The script reads
a hook-event JSON from stdin, and appends a commit entry to the session's
`.commits.json` when the Bash tool's stdout contains a git commit summary
line matching the extended regex `^\[.+ [a-f0-9]\x7b7,\x7d\]`; every guard
failure exits 0 (trap on ERR, explicit `exit 0`s).  `jq` field extraction is
modelled by its outcome (`parsed = none` for invalid JSON, absent fields as
empty strings); the final `echo > tmp && mv tmp file` is modelled as an
atomic-write action.
-/

/-- `[a-f0-9]`: a lowercase-hex character. -/
def isHexLF (c : Char) : Bool :=
  decide ('a' ≤ c ∧ c ≤ 'f') || c.isDigit

/-- Length of the leading run of `[a-f0-9]` characters. -/
def countLeadingHex : List Char → Nat
  | [] => 0
  | c :: cs => if isHexLF c then countLeadingHex cs + 1 else 0

/-- Whether the characters begin with `" "` then at least seven hex
characters then `"]"` (hex characters cannot be `]`, so the block of
`[a-f0-9]\x7b7,\x7d` before the `]` is exactly the maximal leading run). -/
def tailMatch : List Char → Bool
  | ' ' :: ds =>
    decide (7 ≤ countLeadingHex ds) &&
      (match ds.drop (countLeadingHex ds) with
        | ']' :: _ => true
        | _ => false)
  | _ => false

/-- Whether some decomposition `mid ++ tail` with nonempty `mid` (the `.+`)
has a matching `tail`: tries every split point after at least one character. -/
def restMatch : List Char → Bool
  | [] => false
  | _ :: cs => tailMatch cs || restMatch cs

/-- Whether one line matches `^\[.+ [a-f0-9]\x7b7,\x7d\]`. -/
def lineMatch : List Char → Bool
  | '[' :: rest => restMatch rest
  | _ => false

/-- Split a character stream into its lines. -/
def splitLines : List Char → List (List Char)
  | [] => [[]]
  | '\n' :: cs => [] :: splitLines cs
  | c :: cs =>
    match splitLines cs with
    | [] => [[c]]
    | l :: ls => (c :: l) :: ls

/-- The `grep -qE` test: some line of the stdout matches the pattern. -/
def stdoutMatches (s : String) : Bool :=
  (splitLines s.toList).any lineMatch

/-- The first matching line (`grep -oE ... | head -1` picks the first
match). -/
def firstMatchLine (s : String) : Option (List Char) :=
  (splitLines s.toList).find? lineMatch

/-- A valid split of the part after `[` at space position `i`: at least one
`mid` character, a space at `i`, then at least seven hex characters and `]`;
returns the position of the `]`, the end of the match. -/
def validAt (rest : List Char) (i : Nat) : Option Nat :=
  if 1 ≤ i ∧ (rest.drop i).head? = some ' ' then
    if 7 ≤ countLeadingHex (rest.drop (i + 1)) ∧
        ((rest.drop (i + 1)).drop (countLeadingHex (rest.drop (i + 1)))).head? =
          some ']' then
      some (i + 1 + countLeadingHex (rest.drop (i + 1)))
    else none
  else none

/-- The POSIX leftmost-longest split: the valid split with the largest match
end, ties broken towards the latest space (greedy `.+`, as `sed -E` re-parses
the extracted match). -/
def bestSplit (rest : List Char) : Option (Nat × Nat) :=
  (List.range rest.length).foldl
    (fun acc i =>
      match validAt rest i with
      | none => acc
      | some j =>
        match acc with
        | none => some (j, i)
        | some a => if a.1 < j ∨ (a.1 = j ∧ a.2 < i) then some (j, i) else some a)
    none

/-- Branch and hash of a matching commit line, as the `sed -E` substitutions
extract them from the `grep -oE` match. -/
def extractBranchHash (line : List Char) : Option (String × String) :=
  match line with
  | '[' :: rest =>
    match bestSplit rest with
    | some (j, i) => some (⟨rest.take i⟩, ⟨(rest.drop (i + 1)).take (j - i - 1)⟩)
    | none => none
  | _ => none

/-- `${TRANSCRIPT_PATH%.jsonl}.commits.json`. -/
def commitsFileOf (p : String) : String :=
  (if p.endsWith ".jsonl" then p.dropRight 6 else p) ++ ".commits.json"

/-- One commit entry of a `.commits.json` array. -/
structure CommitEntry where
  commitHash : String
  branch : String
  repoUrl : String
  cwd : String
  timestamp : String
  deriving DecidableEq, Repr

/-- The jq view of the hook-event JSON: each field is the `jq -r '.x // empty'`
result (absent or null fields give `""`). -/
structure HookJson where
  tool_name : String
  stdout : String
  session_id : String
  cwd : String
  transcript_path : String
  deriving DecidableEq, Repr

/-- The environment the script runs in: availability of jq, the stdin read,
the JSON parse outcome, filesystem facts, the git remote lookup, the
timestamp, the shell PID, and the current `.commits.json` (present? and if
so, does it parse as an array?). -/
structure HookEnv where
  jqAvailable : Bool
  stdinInput : Option String
  parsed : Option HookJson
  transcriptExists : Bool
  dirWritable : Bool
  repoUrl : Option String
  timestamp : String
  pid : Nat
  existingCommits : Option (Option (List CommitEntry))
  deriving DecidableEq, Repr

/-- A file-system effect of the hook: write a temp file, then rename it over
the final path. -/
inductive FileWrite where
  | atomicWrite (tempPath finalPath : String) (content : List CommitEntry)
  deriving DecidableEq, Repr

structure HookResult where
  exitCode : Nat
  writes : List FileWrite
  deriving DecidableEq, Repr

/-- The existing commits array: `[]` when the file is absent or not a valid
JSON array. -/
def existingEntries (env : HookEnv) : List CommitEntry :=
  match env.existingCommits with
  | some (some l) => l
  | _ => []

/-- Script lines 13-23: jq present, stdin read, non-empty, valid JSON, and a
Bash tool event — the hook-event view the later lines work on. -/
def parsedBash (env : HookEnv) : Option HookJson :=
  if env.jqAvailable then
    match env.stdinInput with
    | none => none
    | some raw =>
      if raw = "" then none
      else
        match env.parsed with
        | none => none
        | some js => if js.tool_name = "Bash" then some js else none
  else none

/-- Script lines 26-41: non-empty stdout matching the commit pattern, and the
branch/hash extracted from the first matching line, both non-empty. -/
def commitSplit (js : HookJson) : Option (String × String) :=
  if js.stdout = "" then none
  else if stdoutMatches js.stdout then
    match firstMatchLine js.stdout with
    | none => none
    | some line =>
      match extractBranchHash line with
      | none => none
      | some (branch, hash) =>
        if branch = "" ∨ hash = "" then none else some (branch, hash)
  else none

/-- The script, line by line: every guard failure exits 0 with no write; when
all guards pass, the new entry is appended to the existing array and written
via a temp file (suffix `.tmp.$$`) followed by a rename. -/
def runHook (env : HookEnv) : HookResult :=
  match parsedBash env with
  | none => ⟨0, []⟩
  | some js =>
    match commitSplit js with
    | none => ⟨0, []⟩
    | some (branch, hash) =>
      if js.transcript_path = "" then ⟨0, []⟩
      else if env.transcriptExists then
        if env.dirWritable then
          ⟨0, [FileWrite.atomicWrite
            (commitsFileOf js.transcript_path ++ ".tmp." ++ toString env.pid)
            (commitsFileOf js.transcript_path)
            (existingEntries env ++
              [⟨hash, branch, env.repoUrl.getD "", js.cwd, env.timestamp⟩])]⟩
        else ⟨0, []⟩
      else ⟨0, []⟩

theorem parsedBash_spec (env : HookEnv) {js : HookJson}
    (h : parsedBash env = some js) :
    env.parsed = some js ∧ js.tool_name = "Bash" := by
  unfold parsedBash at h
  repeat' split at h
  all_goals cases h
  constructor
  · assumption
  · assumption

theorem commitSplit_spec (js : HookJson) {branch hash : String}
    (h : commitSplit js = some (branch, hash)) :
    stdoutMatches js.stdout = true := by
  unfold commitSplit at h
  repeat' split at h
  all_goals cases h
  assumption

theorem runHook_cases (env : HookEnv) :
    runHook env = ⟨0, []⟩ ∨
      ∃ js branch hash,
        env.parsed = some js ∧ js.tool_name = "Bash" ∧
          stdoutMatches js.stdout = true ∧
          runHook env = ⟨0, [FileWrite.atomicWrite
            (commitsFileOf js.transcript_path ++ ".tmp." ++ toString env.pid)
            (commitsFileOf js.transcript_path)
            (existingEntries env ++
              [⟨hash, branch, env.repoUrl.getD "", js.cwd, env.timestamp⟩])]⟩ := by
  cases hpb : parsedBash env with
  | none =>
    left
    simp [runHook, hpb]
  | some js =>
  cases hcs : commitSplit js with
  | none =>
    left
    simp [runHook, hpb, hcs]
  | some bh =>
  obtain ⟨branch, hash⟩ := bh
  by_cases htp : js.transcript_path = ""
  · left
    simp [runHook, hpb, hcs, htp]
  cases htx : env.transcriptExists with
  | false =>
    left
    simp [runHook, hpb, hcs, htp, htx]
  | true =>
  cases hdw : env.dirWritable with
  | false =>
    left
    simp [runHook, hpb, hcs, htp, htx, hdw]
  | true =>
  rcases parsedBash_spec env hpb with ⟨hjs, htool⟩
  refine Or.inr ⟨js, branch, hash, hjs, htool, commitSplit_spec js hcs, ?_⟩
  simp [runHook, hpb, hcs, htp, htx, hdw]

/-- C10: the commit-tracking hook exits 0 on every input (empty stdin,
invalid JSON, non-Bash events, missing transcript, unwritable directory
included); it performs a write only when the tool stdout matches the git
commit pattern `[branch hash]` of a Bash tool event, and the only write it
ever performs appends one entry to the commits array and goes through a temp
file followed by a rename. -/
theorem hook_exit_zero_and_guarded_write (env : HookEnv) :
    (runHook env).exitCode = 0 ∧
      (∀ w ∈ (runHook env).writes, ∃ final entry,
        w = FileWrite.atomicWrite (final ++ ".tmp." ++ toString env.pid) final
          (existingEntries env ++ [entry])) ∧
      ((runHook env).writes ≠ [] → ∃ js, env.parsed = some js ∧
        js.tool_name = "Bash" ∧ stdoutMatches js.stdout = true) := by
  rcases runHook_cases env with h | ⟨js, branch, hash, hjs, htool, hmatch, h⟩
  · rw [h]
    exact ⟨rfl, by simp, by simp⟩
  · rw [h]
    refine ⟨rfl, ?_, fun _ => ⟨js, hjs, htool, hmatch⟩⟩
    intro w hw
    rcases List.mem_singleton.mp hw with rfl
    exact ⟨_, _, rfl⟩

/-- A concrete event: a Bash tool result whose stdout is a git commit
summary. -/
def envEx : HookEnv :=
  ⟨true, some "x",
    some ⟨"Bash", "[main abc1234] add feature", "sid-1", "/w", "/t/s.jsonl"⟩,
    true, true, some "git@host:r.git", "2026-10-12T00:00:00Z", 42,
    some (some [])⟩

theorem hook_exit_zero_and_guarded_write_witness :
    (runHook envEx).exitCode = 0 ∧
      ∃ js, envEx.parsed = some js ∧ js.tool_name = "Bash" ∧
        stdoutMatches js.stdout = true :=
  ⟨(hook_exit_zero_and_guarded_write envEx).1,
    (hook_exit_zero_and_guarded_write envEx).2.2 (by decide)⟩

end Hook
